import Mathlib

/-
  Verification development for the mini-obsidian note server (server.js).

  The JavaScript source is shallowly embedded: the content parser (the two
  regular expressions WIKILINK_RE and TAG_RE together with their matchAll
  loops) becomes explicit character-list scanners, the SQLite-backed store
  becomes a record of lists with explicit state passing, and the fallible
  operations return a result paired with the post-call state.
-/

namespace MiniObsidian

/-! ## JavaScript primitives -/

/-- JavaScript whitespace class: the characters matched by the regex class
backslash-s and removed by String.prototype.trim. -/
def isJsSpace (c : Char) : Bool :=
  c = '\t' || c = '\n' || c.val = 0x0b || c.val = 0x0c || c = '\r' || c = ' ' ||
  c.val = 0xa0 || c.val = 0x1680 || (0x2000 ≤ c.val && c.val ≤ 0x200a) ||
  c.val = 0x2028 || c.val = 0x2029 || c.val = 0x202f || c.val = 0x205f ||
  c.val = 0x3000 || c.val = 0xfeff

/-- JavaScript String.prototype.trim: strip leading and trailing whitespace. -/
def jsTrim (s : String) : String :=
  String.mk (((s.data.dropWhile isJsSpace).reverse.dropWhile isJsSpace).reverse)

/-! ## Content parser (server.js lines 73-89)

WIKILINK_RE = backslash[ backslash[ ([^backslash]|#]+) (?:#.*?)? backslash] backslash]
applied globally by extractLinks. -/

/-- Characters allowed in the captured wikilink title: anything except a
closing bracket, a pipe, or a hash (the negated class of WIKILINK_RE). -/
def isTitleChar (c : Char) : Bool :=
  !(c = ']') && !(c = '|') && !(c = '#')

/-- The lazy tail of WIKILINK_RE after a hash: consume the shortest run of
non-newline characters up to the next pair of closing brackets (the regex
dot does not match a newline), returning the remainder after those
brackets, or none when no such close exists. -/
def findClose : List Char → Option (List Char)
  | ']' :: ']' :: rest => some rest
  | c :: rest => if c = '\n' then none else findClose rest
  | [] => none

/-- Attempt to match WIKILINK_RE at the head of the character list,
returning the captured (untrimmed) title and the remainder after the
whole match. -/
def tryWikilink (cs : List Char) : Option (String × List Char) :=
  match cs with
  | '[' :: '[' :: rest =>
    let body := rest.takeWhile isTitleChar
    let rest1 := rest.dropWhile isTitleChar
    if body.isEmpty then none
    else
      match rest1 with
      | ']' :: ']' :: rest2 => some (String.mk body, rest2)
      | '#' :: rest2 =>
        match findClose rest2 with
        | some rest3 => some (String.mk body, rest3)
        | none => none
      | _ => none
  | _ => none

/-- Global scan of WIKILINK_RE as performed by matchAll: at each position
try to match; on success emit the capture and resume after the match, on
failure advance one character.  The fuel argument only bounds the
recursion; every step consumes at least one character, so any fuel larger
than the list length is exact. -/
def scanWikilinks (fuel : Nat) (cs : List Char) : List String :=
  match fuel with
  | 0 => []
  | fuel + 1 =>
    match tryWikilink cs with
    | some (t, rest) => t :: scanWikilinks fuel rest
    | none =>
      match cs with
      | [] => []
      | _ :: rest => scanWikilinks fuel rest

/-- All raw (untrimmed) wikilink captures of a content string, in match
order. -/
def wikilinkRawTitles (content : String) : List String :=
  scanWikilinks (content.data.length + 1) content.data

/-- extractLinks (server.js lines 76-83): trim each captured title, drop
empty results, and collect into a Set (first-occurrence order, no
duplicates), returned as an array. -/
def linkStep (acc : List String) (r : String) : List String :=
  let t := jsTrim r
  if t = "" then acc else if t ∈ acc then acc else acc ++ [t]

def extractLinks (content : String) : List String :=
  (wikilinkRawTitles content).foldl linkStep []

/-! TAG_RE = (caret|backslash-s) # ([letters digits _ - /]+) word-boundary,
with global and unicode flags, applied by extractTags. -/

/-- Characters allowed in a tag body.  The unicode letter class of TAG_RE
is modelled on the ASCII range. -/
def isTagChar (c : Char) : Bool :=
  c.isAlpha || c.isDigit || c = '_' || c = '-' || c = '/'

/-- JavaScript word characters (the backslash-w class), used by the
word-boundary assertion. -/
def isWordChar (c : Char) : Bool :=
  c.isAlpha || c.isDigit || c = '_'

/-- The word-boundary assertion between a final matched character and the
following character (none at end of input). -/
def boundaryAfter (last : Char) (next : Option Char) : Bool :=
  match next with
  | none => isWordChar last
  | some c => isWordChar last != isWordChar c

/-- Backtracking of the greedy tag-character run against the trailing
word-boundary: starting from the full run (given reversed) drop characters
from its end until the boundary holds, returning the matched body and the
dropped suffix, or none when every nonempty prefix fails. -/
def tagBackoff (rest : List Char) : List Char → List Char → Option (List Char × List Char)
  | [], _ => none
  | last :: rprev, dropped =>
    if boundaryAfter last ((dropped ++ rest).head?) then
      some ((last :: rprev).reverse, dropped)
    else tagBackoff rest rprev (last :: dropped)

/-- Match the tag body directly after a hash: greedy run of tag characters,
then the word-boundary backtracking.  Returns the body and the remainder
of the input after the match. -/
def tagRun (cs : List Char) : Option (List Char × List Char) :=
  let run := cs.takeWhile isTagChar
  let rest1 := cs.dropWhile isTagChar
  if run.isEmpty then none
  else
    match tagBackoff rest1 run.reverse [] with
    | some (body, dropped) => some (body, dropped ++ rest1)
    | none => none

/-- Global scan of TAG_RE: a match needs a hash at the start of the string
(the first flag) or preceded by a whitespace character; on success resume
after the matched body, on failure advance one character. -/
def scanTags (fuel : Nat) (cs : List Char) (first : Bool) : List String :=
  match fuel with
  | 0 => []
  | fuel + 1 =>
    match cs with
    | [] => []
    | '#' :: rest =>
      if first then
        match tagRun rest with
        | some (body, rest2) => String.mk body :: scanTags fuel rest2 false
        | none => scanTags fuel rest false
      else scanTags fuel rest false
    | c :: '#' :: rest =>
      if isJsSpace c then
        match tagRun rest with
        | some (body, rest2) => String.mk body :: scanTags fuel rest2 false
        | none => scanTags fuel ('#' :: rest) false
      else scanTags fuel ('#' :: rest) false
    | _ :: rest => scanTags fuel rest false

/-- All raw tag captures of a content string, in match order. -/
def tagRawBodies (content : String) : List String :=
  scanTags (content.data.length + 1) content.data true

/-- extractTags (server.js lines 85-89): collect the captured tag bodies
into a Set (first-occurrence order, no duplicates), returned as an
array. -/
def tagStep (acc : List String) (t : String) : List String :=
  if t ∈ acc then acc else acc ++ [t]

def extractTags (content : String) : List String :=
  (tagRawBodies content).foldl tagStep []

/-! ## The SQLite-backed store (server.js lines 25-65) -/

/-- One row of the notes table. -/
structure NoteRec where
  id : Nat
  title : String
  content : String
  createdAt : String
  updatedAt : String
deriving DecidableEq, Repr

/-- The database: the notes table, the links table (source_id,
target_title), the tags table (note_id, tag), and the notes_fts index
(rowid, title, content), the last kept in sync by the notes_ai / notes_ad /
notes_au triggers. -/
structure DB where
  notes : List NoteRec
  links : List (Nat × String)
  tags : List (Nat × String)
  fts : List (Nat × String × String)
deriving DecidableEq, Repr

def emptyDB : DB := ⟨[], [], [], []⟩

/-- The runtime errors the embedded statements can raise: violation of
the UNIQUE constraint on notes.title, and violation of the foreign keys
declared by the links and tags tables.  The better-sqlite3 driver
compiles its bundled SQLite with SQLITE_DEFAULT_FOREIGN_KEYS=1, so
foreign-key enforcement is on by default: inserting a links or tags row
whose note id has no notes row fails. -/
inductive DbErr
  | uniqueTitle
  | foreignKey
deriving DecidableEq, Repr

/-- Rowid assignment of an INSERT with no explicit id: one more than the
largest existing rowid (1 on an empty table). -/
def nextId (db : DB) : Nat :=
  (db.notes.foldl (fun m n => max m n.id) 0) + 1

/-- The two DELETE statements of the rebuild (server.js lines 103-104):
remove every links row with this source_id and every tags row with this
note_id.  They run as individual auto-committed statements, before and
outside the insert transaction. -/
def clearDerived (db : DB) (i : Nat) : DB :=
  { db with
    links := db.links.filter (fun l => l.1 ≠ i),
    tags := db.tags.filter (fun t => t.1 ≠ i) }

/-- The insert transaction of the rebuild (server.js lines 109-116): one
links row per extracted target and one tags row per extracted tag. -/
def insertDerived (db : DB) (i : Nat) (content : String) : DB :=
  { db with
    links := db.links ++ (extractLinks content).map (fun t => (i, t)),
    tags := db.tags ++ (extractTags content).map (fun t => (i, t)) }

/-- Tail of upsertNote after the note row write (server.js lines
102-118): the two DELETEs auto-commit, then the transaction inserts the
extracted rows.  With enforced foreign keys every insert requires a notes
row with this id, so when at least one row is to be inserted and the note
id does not exist, the first INSERT fails and the transaction rolls back
the inserts — the already committed DELETEs persist.  On success the note
row is re-selected by id (finding nothing when an UPDATE matched zero
rows and inserted nothing). -/
def finishUpsert (db1 : DB) (i : Nat) (content : String) : DB × Except DbErr (Option NoteRec) :=
  if ((extractLinks content).isEmpty && (extractTags content).isEmpty) = false
      ∧ (db1.notes.any (fun n => n.id = i)) = false then
    (clearDerived db1 i, Except.error DbErr.foreignKey)
  else
    (insertDerived (clearDerived db1 i) i content,
      Except.ok ((insertDerived (clearDerived db1 i) i content).notes.find?
        (fun n => n.id = i)))

/-- The INSERT branch of upsertNote: fail on a duplicate title, otherwise
append the new row (the notes_ai trigger adds the matching notes_fts row)
and continue with the fresh id. -/
def insertNotePath (db : DB) (title content now : String) : DB × Except DbErr (Option NoteRec) :=
  if db.notes.any (fun n => n.title = title) then (db, Except.error DbErr.uniqueTitle)
  else
    let i := nextId db
    let db1 : DB :=
      { db with
        notes := db.notes ++ [⟨i, title, content, now, now⟩],
        fts := db.fts ++ [(i, title, content)] }
    finishUpsert db1 i content

/-- upsertNote (server.js lines 91-119).  A given id of 0 is falsy in
JavaScript and takes the INSERT branch.  The UPDATE branch matches zero
rows without error when the id does not exist (the rebuild then fails on
the enforced foreign keys as soon as it has a row to insert); when the id
does exist, setting the title to another note's title violates the UNIQUE
constraint and the statement fails before any change.  The notes_au
trigger replaces the notes_fts row of an updated note. -/
def upsertNote (db : DB) (oid : Option Nat) (title content now : String) :
    DB × Except DbErr (Option NoteRec) :=
  match oid with
  | some i =>
    if i = 0 then insertNotePath db title content now
    else if db.notes.any (fun n => n.id = i) then
      if db.notes.any (fun n => n.id ≠ i ∧ n.title = title) then
        (db, Except.error DbErr.uniqueTitle)
      else
        finishUpsert
          { db with
            notes := db.notes.map (fun n =>
              if n.id = i then { n with title := title, content := content, updatedAt := now } else n),
            fts := db.fts.filter (fun f => f.1 ≠ i) ++ [(i, title, content)] }
          i content
    else finishUpsert db i content
  | none => insertNotePath db title content now

/-- The POST /api/notes handler body (server.js lines 127-135). -/
def createNote (db : DB) (title content now : String) : DB × Except DbErr (Option NoteRec) :=
  upsertNote db none title content now

/-- The PUT /api/notes/:id handler body (server.js lines 143-153). -/
def updateNote (db : DB) (i : Nat) (title content now : String) :
    DB × Except DbErr (Option NoteRec) :=
  upsertNote db (some i) title content now

/-- The DELETE /api/notes/:id handler (server.js lines 155-161): delete
links and tags rows for the id unconditionally, then delete the note row;
the notes_ad trigger removes the notes_fts row of each deleted note.  The
returned count is the number of note rows removed. -/
def deleteNote (db : DB) (i : Nat) : DB × Nat :=
  let links1 := db.links.filter (fun l => l.1 ≠ i)
  let tags1 := db.tags.filter (fun t => t.1 ≠ i)
  let removed := (db.notes.filter (fun n => n.id = i)).length
  let notes1 := db.notes.filter (fun n => n.id ≠ i)
  let fts1 := if removed > 0 then db.fts.filter (fun f => f.1 ≠ i) else db.fts
  (⟨notes1, links1, tags1, fts1⟩, removed)

/-- Foreign-key consistency of a database: every links row's source_id
and every tags row's note_id is the id of some notes row.  The enforced
foreign keys maintain this invariant across every operation of the
server. -/
def fkConsistent (db : DB) : Prop :=
  (∀ l ∈ db.links, ∃ n ∈ db.notes, n.id = l.1) ∧
  (∀ t ∈ db.tags, ∃ n ∈ db.notes, n.id = t.1)

/-- A one-note database used to exhibit the behaviour of an update whose
id does not exist. -/
def oneNoteDB : DB := ⟨[⟨1, "A", "", "t0", "t0"⟩], [], [], [(1, "A", "")]⟩

/-! ## Context assembly for the AI chat route (server.js lines 205-236) -/

/-- pushNote (server.js lines 213-215): skip a missing row or an already
used id, otherwise record the id and append the note. -/
def pushNote (st : List NoteRec × List Nat) (n : Option NoteRec) : List NoteRec × List Nat :=
  match n with
  | none => st
  | some m => if m.id ∈ st.2 then st else (st.1 ++ [m], st.2 ++ [m.id])

/-- SQLite LIKE matching (case folding on the ASCII range only, percent
matching any run, underscore matching any single character).  The fuel
bounds the recursion; every step shrinks pattern plus text, so any fuel
above their combined length is exact. -/
def likeMatch (fuel : Nat) (p t : List Char) : Bool :=
  match fuel with
  | 0 => false
  | fuel + 1 =>
    match p, t with
    | [], [] => true
    | '%' :: ps, ts =>
      likeMatch fuel ps ts ||
        (match ts with
         | [] => false
         | _ :: ts2 => likeMatch fuel ('%' :: ps) ts2)
    | '_' :: ps, _ :: ts => likeMatch fuel ps ts
    | c :: ps, d :: ts => (c.toLower = d.toLower) && likeMatch fuel ps ts
    | _, _ => false

def sqliteLike (pattern text : String) : Bool :=
  likeMatch (pattern.data.length + text.data.length + 1) pattern.data text.data

/-- The crude quote stripping applied to the prompt before the full-text
query (server.js line 226). -/
def stripQuotes (s : String) : String :=
  String.mk (s.data.filter (fun c => c ≠ '"'))

/-- The LIKE pattern of the fallback title search: percent, query,
percent. -/
def likeAnyPattern (q : String) : String := "%" ++ q ++ "%"

/-- Projection applied by the fallback SELECT: content truncated to its
first 4000 characters. -/
def truncNote (n : NoteRec) : NoteRec :=
  { n with content := String.mk (n.content.data.take 4000) }

/-- The fallback title substring search (server.js line 234): notes whose
title matches percent-query-percent, content truncated, limited to topK
rows. -/
def fallbackRows (db : DB) (q : String) (topK : Nat) : List NoteRec :=
  ((db.notes.filter (fun n => sqliteLike (likeAnyPattern q) n.title)).map truncNote).take topK

/-- Insertion into a list kept sorted by updatedAt descending. -/
def insertDesc (n : NoteRec) : List NoteRec → List NoteRec
  | [] => [n]
  | m :: ms => if m.updatedAt ≤ n.updatedAt then n :: m :: ms else m :: insertDesc n ms

/-- ORDER BY updated_at DESC, modelled by insertion sort. -/
def sortByUpdatedDesc (l : List NoteRec) : List NoteRec :=
  l.foldr insertDesc []

/-- The includeAll source: the 50 most recently updated notes. -/
def recentNotes (db : DB) : List NoteRec :=
  (sortByUpdatedDesc db.notes).take 50

inductive ChatErr
  | promptRequired
deriving DecidableEq, Repr

/-- Step 1 of the assembly: when a truthy noteId is given, push the result
of looking that note up (possibly missing). -/
def anchorState (db : DB) (noteId : Option Nat) : List NoteRec × List Nat :=
  match noteId with
  | some i => if i ≠ 0 then pushNote ([], []) (db.notes.find? (fun n => n.id = i)) else ([], [])
  | none => ([], [])

/-- The context-assembly part of the POST /api/ai/chat handler (server.js
lines 205-236).  The outcome of the external full-text MATCH query is an
input: a row list on success, or the syntax-error condition raised by the
index on a malformed query, which the handler catches and replaces by the
fallback title search.  The LIMIT bound of the two SELECTs is modelled by
take. -/
def stepPush (s : List NoteRec × List Nat) (r : NoteRec) : List NoteRec × List Nat :=
  pushNote s (some r)

def chatContext (db : DB) (prompt : String) (noteId : Option Nat) (topK : Nat)
    (includeAll : Bool) (ftsOutcome : Except Unit (List NoteRec)) :
    Except ChatErr (List NoteRec) :=
  if jsTrim prompt = "" then Except.error ChatErr.promptRequired
  else
    let st1 := anchorState db noteId
    let st2 :=
      if includeAll then
        (recentNotes db).foldl stepPush st1
      else
        match ftsOutcome with
        | Except.ok rows => (rows.take topK).foldl stepPush st1
        | Except.error _ =>
          (fallbackRows db (stripQuotes prompt) topK).foldl stepPush st1
    Except.ok st2.1

/-! ## Lemmas about the deduplicating folds of the content parser -/

theorem linkStep_nodup (acc : List String) (r : String) (h : acc.Nodup) :
    (linkStep acc r).Nodup := by
  unfold linkStep
  by_cases h1 : jsTrim r = ""
  · simpa [h1]
  · by_cases h2 : jsTrim r ∈ acc
    · simpa [h1, h2]
    · simp [h1, h2, List.nodup_append, h]

theorem mem_linkStep (acc : List String) (r t : String) :
    t ∈ linkStep acc r ↔ t ∈ acc ∨ (jsTrim r = t ∧ t ≠ "") := by
  unfold linkStep
  by_cases h1 : jsTrim r = ""
  · simp only [h1, if_pos rfl]
    constructor
    · exact fun h => Or.inl h
    · rintro (h | ⟨h, hne⟩)
      · exact h
      · exact absurd h.symm hne
  · by_cases h2 : jsTrim r ∈ acc
    · simp only [if_neg h1, if_pos h2]
      constructor
      · exact fun h => Or.inl h
      · rintro (h | ⟨h, _⟩)
        · exact h
        · exact h ▸ h2
    · simp only [if_neg h1, if_neg h2, List.mem_append, List.mem_singleton]
      constructor
      · rintro (h | h)
        · exact Or.inl h
        · exact Or.inr ⟨h.symm, fun he => h1 (h ▸ he)⟩
      · rintro (h | ⟨h, _⟩)
        · exact Or.inl h
        · exact Or.inr h.symm

theorem foldl_linkStep_nodup (L : List String) (acc : List String) (h : acc.Nodup) :
    (L.foldl linkStep acc).Nodup := by
  induction L generalizing acc with
  | nil => exact h
  | cons r L ih => exact ih _ (linkStep_nodup acc r h)

theorem mem_foldl_linkStep (L : List String) (acc : List String) (t : String) :
    t ∈ L.foldl linkStep acc ↔ t ∈ acc ∨ ∃ r ∈ L, jsTrim r = t ∧ t ≠ "" := by
  induction L generalizing acc with
  | nil => simp
  | cons r L ih =>
    simp only [List.foldl_cons, ih, mem_linkStep, List.mem_cons]
    constructor
    · rintro ((h | h) | ⟨r2, hr2, h⟩)
      · exact Or.inl h
      · exact Or.inr ⟨r, Or.inl rfl, h⟩
      · exact Or.inr ⟨r2, Or.inr hr2, h⟩
    · rintro (h | ⟨r2, (rfl | hr2), h⟩)
      · exact Or.inl (Or.inl h)
      · exact Or.inl (Or.inr h)
      · exact Or.inr ⟨r2, hr2, h⟩

/-- C6 — extractLinks returns the set of trimmed wikilink titles: no
duplicates, an element is exactly a nonempty trim of some raw wikilink
capture (the part before any hash, which is discarded by the scanner), and
the function is deterministic, so a second run on identical input yields
the identical set. -/
theorem extractLinks_set_semantics (c : String) :
    (extractLinks c).Nodup ∧
    (∀ t, t ∈ extractLinks c ↔ (∃ r ∈ wikilinkRawTitles c, jsTrim r = t) ∧ t ≠ "") ∧
    (∀ c2, c2 = c → extractLinks c2 = extractLinks c) := by
  refine ⟨foldl_linkStep_nodup _ _ List.nodup_nil, fun t => ?_, fun c2 h => h ▸ rfl⟩
  rw [extractLinks, mem_foldl_linkStep]
  constructor
  · rintro (h | ⟨r, hr, h1, h2⟩)
    · simp at h
    · exact ⟨⟨r, hr, h1⟩, h2⟩
  · rintro ⟨⟨r, hr, h1⟩, h2⟩
    exact Or.inr ⟨r, hr, h1, h2⟩

/-- Witness for C6 at concrete content containing a plain wikilink, a
duplicate of it carrying a heading, and whitespace padding. -/
theorem extractLinks_set_semantics_witness :
    ("Beta" ∈ extractLinks "see [[Beta]] and [[ Beta#sec ]]") ∧
    (extractLinks "see [[Beta]] and [[ Beta#sec ]]").Nodup :=
  ⟨((extractLinks_set_semantics "see [[Beta]] and [[ Beta#sec ]]").2.1 "Beta").mpr
      (by constructor
          · exact ⟨" Beta", by decide, by decide⟩
          · decide),
   (extractLinks_set_semantics "see [[Beta]] and [[ Beta#sec ]]").1⟩

/-! ## Lemmas about the derived-row rebuild -/

theorem filter_ne_then_eq (l : List (Nat × String)) (i : Nat) :
    ((l.filter (fun x => x.1 ≠ i)).filter (fun x => x.1 = i)) = [] := by
  induction l with
  | nil => rfl
  | cons a l ih =>
    by_cases h : a.1 = i
    · simp [h, ih]
    · simp [h, ih]

theorem filter_map_pair (L : List String) (i : Nat) :
    (((L.map (fun t => (i, t))).filter (fun x => x.1 = i)).map Prod.snd) = L := by
  induction L with
  | nil => rfl
  | cons a L ih => simpa using ih

theorem rebuild_rows_exact (db : DB) (i : Nat) (c : String) :
    ((insertDerived (clearDerived db i) i c).links.filter (fun l => l.1 = i)).map Prod.snd =
      extractLinks c ∧
    ((insertDerived (clearDerived db i) i c).tags.filter (fun l => l.1 = i)).map Prod.snd =
      extractTags c := by
  unfold insertDerived clearDerived
  constructor
  · simp only [List.filter_append, List.map_append, filter_ne_then_eq, filter_map_pair,
      List.map_nil, List.nil_append]
  · simp only [List.filter_append, List.map_append, filter_ne_then_eq, filter_map_pair,
      List.map_nil, List.nil_append]

theorem finishUpsert_exact (db1 : DB) (i : Nat) (content : String) (db2 : DB)
    (r : Option NoteRec) (n : NoteRec)
    (h : finishUpsert db1 i content = (db2, Except.ok r)) (hr : r = some n) :
    ((db2.links.filter (fun l => l.1 = n.id)).map Prod.snd = extractLinks content ∧
     (db2.tags.filter (fun l => l.1 = n.id)).map Prod.snd = extractTags content) := by
  rw [finishUpsert] at h
  split at h
  · exact absurd (congrArg Prod.snd h) (by simp)
  · have hdb : insertDerived (clearDerived db1 i) i content = db2 := congrArg Prod.fst h
    have hfind : (insertDerived (clearDerived db1 i) i content).notes.find?
        (fun n => n.id = i) = r := by
      have := congrArg Prod.snd h
      simpa using this
    subst hr
    have hid : n.id = i := by
      have := List.find?_some (hfind)
      simpa using this
    subst hdb
    rw [hid]
    exact rebuild_rows_exact db1 i content

theorem insertNotePath_exact (db : DB) (title content now : String) (db2 : DB)
    (r : Option NoteRec) (n : NoteRec)
    (h : insertNotePath db title content now = (db2, Except.ok r)) (hr : r = some n) :
    ((db2.links.filter (fun l => l.1 = n.id)).map Prod.snd = extractLinks content ∧
     (db2.tags.filter (fun l => l.1 = n.id)).map Prod.snd = extractTags content) := by
  unfold insertNotePath at h
  split at h
  · exact absurd (congrArg Prod.snd h) (by simp)
  · exact finishUpsert_exact _ _ _ _ _ _ h hr

/-- C1 — after every successful create or update carrying content C that
returns a note row, the links rows for that note are exactly
extractLinks C and the tags rows are exactly extractTags C: nothing from
the previous content survives the rebuild and nothing extracted is
missing. -/
theorem upsert_rebuilds_exactly (db : DB) (oid : Option Nat) (title content now : String)
    (db2 : DB) (r : Option NoteRec) (n : NoteRec)
    (h : upsertNote db oid title content now = (db2, Except.ok r)) (hr : r = some n) :
    ((db2.links.filter (fun l => l.1 = n.id)).map Prod.snd = extractLinks content ∧
     (db2.tags.filter (fun l => l.1 = n.id)).map Prod.snd = extractTags content) := by
  match oid with
  | none => exact insertNotePath_exact _ _ _ _ _ _ _ h hr
  | some i =>
    rw [upsertNote] at h
    split at h
    · exact insertNotePath_exact _ _ _ _ _ _ _ h hr
    · split at h
      · split at h
        · exact absurd (congrArg Prod.snd h) (by simp)
        · exact finishUpsert_exact _ _ _ _ _ _ h hr
      · exact finishUpsert_exact _ _ _ _ _ _ h hr

/-- Witness for C1: creating a first note with one wikilink and one tag. -/
theorem upsert_rebuilds_exactly_witness :
    (((upsertNote emptyDB none "A" "see [[B]] and #x" "t0").1.links.filter
        (fun l => l.1 = 1)).map Prod.snd = extractLinks "see [[B]] and #x" ∧
     ((upsertNote emptyDB none "A" "see [[B]] and #x" "t0").1.tags.filter
        (fun l => l.1 = 1)).map Prod.snd = extractTags "see [[B]] and #x") := by
  have h : upsertNote emptyDB none "A" "see [[B]] and #x" "t0" =
      ((upsertNote emptyDB none "A" "see [[B]] and #x" "t0").1,
        Except.ok (some ⟨1, "A", "see [[B]] and #x", "t0", "t0"⟩)) := by rfl
  exact upsert_rebuilds_exactly emptyDB none "A" "see [[B]] and #x" "t0" _ _
    ⟨1, "A", "see [[B]] and #x", "t0", "t0"⟩ h rfl

/-! ## Failure atomicity of upsertNote -/

theorem finishUpsert_ok_of_parent (db1 : DB) (i : Nat) (content : String)
    (hpar : db1.notes.any (fun n => n.id = i) = true) :
    finishUpsert db1 i content =
      (insertDerived (clearDerived db1 i) i content,
        Except.ok ((insertDerived (clearDerived db1 i) i content).notes.find?
          (fun n => n.id = i))) := by
  rw [finishUpsert, if_neg]
  rintro ⟨-, hB⟩
  rw [hpar] at hB
  exact Bool.noConfusion hB

theorem finishUpsert_error_state (db1 : DB) (i : Nat) (content : String) (db2 : DB)
    (e : DbErr) (h : finishUpsert db1 i content = (db2, Except.error e)) :
    db2 = clearDerived db1 i ∧ db1.notes.any (fun n => n.id = i) = false := by
  rw [finishUpsert] at h
  split at h
  · next hc => exact ⟨(congrArg Prod.fst h).symm, hc.2⟩
  · exact absurd (congrArg Prod.snd h) (by simp)

/-- On a foreign-key consistent database, the two DELETEs of the rebuild
for an id with no note remove nothing. -/
theorem clearDerived_eq_self (db : DB) (i : Nat) (hfk : fkConsistent db)
    (habs : db.notes.any (fun n => n.id = i) = false) :
    clearDerived db i = db := by
  rw [List.any_eq_false] at habs
  have hl : db.links.filter (fun l => l.1 ≠ i) = db.links := by
    rw [List.filter_eq_self]
    intro l hl
    obtain ⟨n, hn, hid⟩ := hfk.1 l hl
    simp only [ne_eq, decide_not, Bool.not_eq_eq_eq_not, Bool.not_true, decide_eq_false_iff_not]
    intro he
    exact habs n hn (by simp [hid, he])
  have ht : db.tags.filter (fun t => t.1 ≠ i) = db.tags := by
    rw [List.filter_eq_self]
    intro t htm
    obtain ⟨n, hn, hid⟩ := hfk.2 t htm
    simp only [ne_eq, decide_not, Bool.not_eq_eq_eq_not, Bool.not_true, decide_eq_false_iff_not]
    intro he
    exact habs n hn (by simp [hid, he])
  show { db with links := db.links.filter (fun l => l.1 ≠ i),
                 tags := db.tags.filter (fun t => t.1 ≠ i) } = db
  rw [hl, ht]

theorem insertNotePath_error_no_mutation (db : DB) (title content now : String) (db2 : DB)
    (e : DbErr) (h : insertNotePath db title content now = (db2, Except.error e)) :
    db2 = db := by
  rw [insertNotePath] at h
  split at h
  · exact (congrArg Prod.fst h).symm
  · exfalso
    obtain ⟨-, habs⟩ := finishUpsert_error_state _ _ _ _ _ h
    rw [List.any_eq_false] at habs
    exact habs ⟨nextId db, title, content, now, now⟩
      (List.mem_append_right _ (List.mem_singleton.mpr rfl)) (by simp)

/-! The enforced foreign keys maintain fkConsistent across every
operation of the server, which justifies assuming it of the pre-state. -/

theorem clearDerived_fk (db : DB) (i : Nat) (h : fkConsistent db) :
    fkConsistent (clearDerived db i) := by
  constructor
  · intro l hl
    exact h.1 l (List.mem_of_mem_filter hl)
  · intro t ht
    exact h.2 t (List.mem_of_mem_filter ht)

theorem finishUpsert_fk (db1 : DB) (i : Nat) (content : String) (h : fkConsistent db1) :
    fkConsistent (finishUpsert db1 i content).1 := by
  rw [finishUpsert]
  split
  · exact clearDerived_fk db1 i h
  · next hc =>
    have hpar : (∃ n ∈ db1.notes, n.id = i) ∨
        ((extractLinks content).isEmpty = true ∧ (extractTags content).isEmpty = true) := by
      by_cases hA : ((extractLinks content).isEmpty && (extractTags content).isEmpty) = false
      · have hB : ¬ (db1.notes.any (fun n => n.id = i) = false) := fun hB => hc ⟨hA, hB⟩
        have hT : db1.notes.any (fun n => n.id = i) = true := by
          cases hq : db1.notes.any (fun n => n.id = i)
          · exact absurd hq hB
          · rfl
        obtain ⟨n, hn, hid⟩ := List.any_eq_true.mp hT
        exact Or.inl ⟨n, hn, by simpa using hid⟩
      · have hT : ((extractLinks content).isEmpty && (extractTags content).isEmpty) = true := by
          cases hq : ((extractLinks content).isEmpty && (extractTags content).isEmpty)
          · exact absurd hq hA
          · rfl
        rw [Bool.and_eq_true] at hT
        exact Or.inr hT
    constructor
    · intro l hl
      have hl2 : l ∈ (clearDerived db1 i).links ++
          (extractLinks content).map (fun t => (i, t)) := hl
      rcases List.mem_append.mp hl2 with h1 | h1
      · exact (clearDerived_fk db1 i h).1 l h1
      · obtain ⟨t, ht, he⟩ := List.mem_map.mp h1
        rcases hpar with ⟨n, hn, hid⟩ | ⟨hE, -⟩
        · refine ⟨n, hn, ?_⟩
          rw [← he]
          exact hid
        · exfalso
          cases hE2 : extractLinks content with
          | nil => rw [hE2] at ht; cases ht
          | cons a as =>
            rw [hE2] at hE
            exact Bool.noConfusion hE
    · intro t ht
      have ht2 : t ∈ (clearDerived db1 i).tags ++
          (extractTags content).map (fun x => (i, x)) := ht
      rcases List.mem_append.mp ht2 with h1 | h1
      · exact (clearDerived_fk db1 i h).2 t h1
      · obtain ⟨x, hx, he⟩ := List.mem_map.mp h1
        rcases hpar with ⟨n, hn, hid⟩ | ⟨-, hE⟩
        · refine ⟨n, hn, ?_⟩
          rw [← he]
          exact hid
        · exfalso
          cases hE2 : extractTags content with
          | nil => rw [hE2] at hx; cases hx
          | cons a as =>
            rw [hE2] at hE
            exact Bool.noConfusion hE

theorem upsert_preserves_fk (db : DB) (oid : Option Nat) (title content now : String)
    (h : fkConsistent db) :
    fkConsistent (upsertNote db oid title content now).1 := by
  have hins : fkConsistent (insertNotePath db title content now).1 := by
    rw [insertNotePath]
    split
    · exact h
    · apply finishUpsert_fk
      constructor
      · intro l hl
        obtain ⟨n, hn, hid⟩ := h.1 l hl
        exact ⟨n, List.mem_append_left _ hn, hid⟩
      · intro t ht
        obtain ⟨n, hn, hid⟩ := h.2 t ht
        exact ⟨n, List.mem_append_left _ hn, hid⟩
  match oid with
  | none => exact hins
  | some i =>
    rw [upsertNote]
    split
    · exact hins
    · split
      · split
        · exact h
        · apply finishUpsert_fk
          constructor
          · intro l hl
            obtain ⟨n, hn, hid⟩ := h.1 l hl
            refine ⟨(if n.id = i then
                { n with title := title, content := content, updatedAt := now } else n),
              List.mem_map_of_mem _ hn, ?_⟩
            have hfid : (if n.id = i then
                { n with title := title, content := content, updatedAt := now } else n).id =
                  n.id := by
              by_cases hni : n.id = i
              · rw [if_pos hni]
              · rw [if_neg hni]
            rw [hfid]
            exact hid
          · intro t ht
            obtain ⟨n, hn, hid⟩ := h.2 t ht
            refine ⟨(if n.id = i then
                { n with title := title, content := content, updatedAt := now } else n),
              List.mem_map_of_mem _ hn, ?_⟩
            have hfid : (if n.id = i then
                { n with title := title, content := content, updatedAt := now } else n).id =
                  n.id := by
              by_cases hni : n.id = i
              · rw [if_pos hni]
              · rw [if_neg hni]
            rw [hfid]
            exact hid
      · exact finishUpsert_fk _ _ _ h

theorem delete_preserves_fk (db : DB) (i : Nat) (h : fkConsistent db) :
    fkConsistent (deleteNote db i).1 := by
  constructor
  · intro l hl
    have hl2 : l ∈ db.links.filter (fun l => l.1 ≠ i) := hl
    have hne : l.1 ≠ i := by simpa using List.of_mem_filter hl2
    obtain ⟨n, hn, hid⟩ := h.1 l (List.mem_of_mem_filter hl2)
    refine ⟨n, ?_, hid⟩
    show n ∈ db.notes.filter (fun n => n.id ≠ i)
    refine List.mem_filter.mpr ⟨hn, ?_⟩
    simp only [ne_eq, decide_not, Bool.not_eq_eq_eq_not, Bool.not_true, decide_eq_false_iff_not]
    intro he
    exact hne (hid ▸ he)
  · intro t ht
    have ht2 : t ∈ db.tags.filter (fun t => t.1 ≠ i) := ht
    have hne : t.1 ≠ i := by simpa using List.of_mem_filter ht2
    obtain ⟨n, hn, hid⟩ := h.2 t (List.mem_of_mem_filter ht2)
    refine ⟨n, ?_, hid⟩
    show n ∈ db.notes.filter (fun n => n.id ≠ i)
    refine List.mem_filter.mpr ⟨hn, ?_⟩
    simp only [ne_eq, decide_not, Bool.not_eq_eq_eq_not, Bool.not_true, decide_eq_false_iff_not]
    intro he
    exact hne (hid ▸ he)

/-- C2 — whenever a create or update call fails on a foreign-key
consistent database (the invariant the enforced foreign keys maintain
across every server operation), the database is left exactly as it was:
the UNIQUE title violation of the initial INSERT or UPDATE precedes every
mutation, and the foreign-key failure of a missing-id rebuild rolls back
its insert transaction while the preceding DELETEs removed nothing, a
consistent store holding no derived rows for an id with no note.  So no
note row, links row, tags row, or search-index row is changed by a
failing call. -/
theorem upsert_error_no_mutation (db : DB) (oid : Option Nat) (title content now : String)
    (db2 : DB) (e : DbErr) (hfk : fkConsistent db)
    (h : upsertNote db oid title content now = (db2, Except.error e)) : db2 = db := by
  match oid with
  | none => exact insertNotePath_error_no_mutation _ _ _ _ _ _ h
  | some i =>
    rw [upsertNote] at h
    split at h
    · exact insertNotePath_error_no_mutation _ _ _ _ _ _ h
    · split at h
      · next hex =>
        split at h
        · exact (congrArg Prod.fst h).symm
        · exfalso
          obtain ⟨-, habs⟩ := finishUpsert_error_state _ _ _ _ _ h
          rw [List.any_eq_false] at habs
          obtain ⟨n, hn, hid⟩ := List.any_eq_true.mp hex
          refine habs (if n.id = i then
              { n with title := title, content := content, updatedAt := now } else n)
            (List.mem_map_of_mem _ hn) ?_
          have hni : n.id = i := by simpa using hid
          simp [hni]
      · next hnx =>
        obtain ⟨hst, -⟩ := finishUpsert_error_state _ _ _ _ _ h
        have hfalse : db.notes.any (fun n => n.id = i) = false := by
          cases hq : db.notes.any (fun n => n.id = i)
          · rfl
          · exact absurd hq hnx
        rw [hst]
        exact clearDerived_eq_self db i hfk hfalse

/-- Witness for C2: a missing-id update with linkful content fails on the
enforced foreign key and leaves the consistent one-note database
unchanged. -/
theorem upsert_error_no_mutation_witness :
    (upsertNote oneNoteDB (some 2) "T" "see [[X]] #y" "t1").1 = oneNoteDB := by
  have h : upsertNote oneNoteDB (some 2) "T" "see [[X]] #y" "t1" =
      ((upsertNote oneNoteDB (some 2) "T" "see [[X]] #y" "t1").1,
        Except.error DbErr.foreignKey) := by rfl
  exact upsert_error_no_mutation oneNoteDB (some 2) "T" "see [[X]] #y" "t1" _
    DbErr.foreignKey (by constructor <;> (intro x hx; simp [oneNoteDB] at hx)) h

/-! ## The missing-id update (C3) -/

/-- C3 is violated by the code, which never reports a not-found condition
for a missing id: with content extracting no links or tags the UPDATE
matches zero rows and the handler answers success carrying no note row,
mutating nothing; with linkful content the rebuild's first INSERT
violates the enforced foreign key and the handler reports that
constraint error (a generic 400) instead of a not-found one, again
mutating nothing on a consistent store. -/
theorem update_missing_id_no_not_found :
    (updateNote oneNoteDB 2 "T" "" "t1").2 = Except.ok none ∧
    (updateNote oneNoteDB 2 "T" "" "t1").1 = oneNoteDB ∧
    (updateNote oneNoteDB 2 "T" "see [[X]] #y" "t1").2 = Except.error DbErr.foreignKey ∧
    (updateNote oneNoteDB 2 "T" "see [[X]] #y" "t1").1 = oneNoteDB := by
  exact ⟨rfl, rfl, rfl, rfl⟩

/-! ## Empty titles (C4) -/

/-- C4 as stated is violated by the code: the UNIQUE NOT NULL column
constraint does not reject an empty string, so creating a note with an
empty title succeeds and a row is inserted. -/
theorem create_empty_title_not_rejected :
    (createNote emptyDB "" "x" "t0").2 = Except.ok (some ⟨1, "", "x", "t0", "t0"⟩) ∧
    (createNote emptyDB "" "x" "t0").1.notes = [⟨1, "", "x", "t0", "t0"⟩] := by
  exact ⟨rfl, rfl⟩

/-- C4 amended — creating a note with an empty title succeeds whenever no
existing note already has the empty title, and a note row with empty
title and the given content is inserted; emptiness itself is never
rejected. -/
theorem create_empty_title_creates_note (db : DB) (content now : String)
    (h : ∀ n ∈ db.notes, n.title ≠ "") :
    ∃ db2 r, createNote db "" content now = (db2, Except.ok r) ∧
      ∃ m ∈ db2.notes, m.title = "" ∧ m.content = content := by
  have hany : db.notes.any (fun n => n.title = "") = false := by
    rw [List.any_eq_false]
    intro n hn
    simpa using h n hn
  rw [createNote, upsertNote, insertNotePath, hany]
  simp only [Bool.false_eq_true, if_false]
  have hpar : (db.notes ++ [(⟨nextId db, "", content, now, now⟩ : NoteRec)]).any
      (fun n => n.id = nextId db) = true := by
    rw [List.any_eq_true]
    exact ⟨⟨nextId db, "", content, now, now⟩,
      List.mem_append_right _ (List.mem_singleton.mpr rfl), by simp⟩
  refine ⟨_, _, finishUpsert_ok_of_parent _ _ _ hpar,
    ⟨nextId db, "", content, now, now⟩, ?_, rfl, rfl⟩
  exact List.mem_append_right _ (List.mem_singleton.mpr rfl)

/-- Witness for the amended C4 on the empty database. -/
theorem create_empty_title_creates_note_witness :
    ∃ db2 r, createNote emptyDB "" "x" "t0" = (db2, Except.ok r) ∧
      ∃ m ∈ db2.notes, m.title = "" ∧ m.content = "x" :=
  create_empty_title_creates_note emptyDB "x" "t0" (by intro n hn; cases hn)

/-! ## Duplicate titles (C5) -/

/-- C5 — creating a note whose title is already used by an existing note
fails with the UNIQUE violation and leaves the database unchanged, so no
new row is created. -/
theorem create_duplicate_title_rejected (db : DB) (title content now : String)
    (h : ∃ n ∈ db.notes, n.title = title) :
    createNote db title content now = (db, Except.error DbErr.uniqueTitle) := by
  have hany : db.notes.any (fun n => n.title = title) = true := by
    rw [List.any_eq_true]
    obtain ⟨n, hn, ht⟩ := h
    exact ⟨n, hn, by simpa using ht⟩
  rw [createNote, upsertNote, insertNotePath, hany]
  simp

/-- Witness for C5: a second note titled A collides with the first. -/
theorem create_duplicate_title_rejected_witness :
    createNote (createNote emptyDB "A" "" "t0").1 "A" "zz" "t1" =
      ((createNote emptyDB "A" "" "t0").1, Except.error DbErr.uniqueTitle) :=
  create_duplicate_title_rejected (createNote emptyDB "A" "" "t0").1 "A" "zz" "t1"
    ⟨⟨1, "A", "", "t0", "t0"⟩, by rw [show (createNote emptyDB "A" "" "t0").1.notes =
      [⟨1, "A", "", "t0", "t0"⟩] from rfl]; exact List.mem_singleton.mpr rfl, rfl⟩

/-! ## Deletion (C7, C10) -/

theorem length_filter_id_le_one (l : List NoteRec) (i : Nat)
    (h : (l.map (fun n => n.id)).Nodup) :
    (l.filter (fun n => n.id = i)).length ≤ 1 := by
  induction l with
  | nil => simp
  | cons a l ih =>
    rw [List.map_cons, List.nodup_cons] at h
    by_cases hi : a.id = i
    · have hnil : l.filter (fun n => n.id = i) = [] := by
        rw [List.filter_eq_nil_iff]
        intro n hn
        simp only [decide_eq_true_eq]
        intro he
        exact h.1 (List.mem_map.mpr ⟨n, hn, by rw [he, hi]⟩)
      simp [hi, hnil]
    · simpa [hi] using ih h.2

/-- C7 — deleting an id removes the note row, every links row with that
source id, every tags row with that note id, and (when the note existed)
its search-index row; the returned count is 1 when the note existed and 0
otherwise, and deleting a nonexistent id is not an error. -/
theorem delete_removes_all (db : DB) (i : Nat)
    (h : (db.notes.map (fun n => n.id)).Nodup) :
    (∀ n ∈ (deleteNote db i).1.notes, n.id ≠ i) ∧
    (∀ l ∈ (deleteNote db i).1.links, l.1 ≠ i) ∧
    (∀ t ∈ (deleteNote db i).1.tags, t.1 ≠ i) ∧
    ((∃ n ∈ db.notes, n.id = i) → ∀ f ∈ (deleteNote db i).1.fts, f.1 ≠ i) ∧
    ((deleteNote db i).2 = if db.notes.any (fun n => n.id = i) then 1 else 0) := by
  refine ⟨?_, ?_, ?_, ?_, ?_⟩
  · intro n hn
    have := List.of_mem_filter hn
    simpa using this
  · intro l hl
    have := List.of_mem_filter hl
    simpa using this
  · intro t ht
    have := List.of_mem_filter ht
    simpa using this
  · rintro ⟨n, hn, hi⟩ f hf
    have hmem : n ∈ db.notes.filter (fun n => n.id = i) :=
      List.mem_filter.mpr ⟨hn, by simpa using hi⟩
    have hpos : 0 < (db.notes.filter (fun n => n.id = i)).length :=
      List.length_pos.mpr (List.ne_nil_of_mem hmem)
    have hfts : (deleteNote db i).1.fts = db.fts.filter (fun f => f.1 ≠ i) := by
      show (if (db.notes.filter (fun n => n.id = i)).length > 0 then _ else _) = _
      rw [if_pos hpos]
    rw [hfts] at hf
    have := List.of_mem_filter hf
    simpa using this
  · show (db.notes.filter (fun n => n.id = i)).length = _
    by_cases hany : db.notes.any (fun n => n.id = i) = true
    · rw [if_pos hany]
      obtain ⟨n, hn, hi⟩ := List.any_eq_true.mp hany
      have hmem : n ∈ db.notes.filter (fun n => n.id = i) := List.mem_filter.mpr ⟨hn, hi⟩
      have hpos : 0 < (db.notes.filter (fun n => n.id = i)).length :=
        List.length_pos.mpr (List.ne_nil_of_mem hmem)
      have hle := length_filter_id_le_one db.notes i h
      omega
    · rw [if_neg hany]
      have hall : ∀ n ∈ db.notes, ¬ n.id = i := by
        intro n hn he
        exact hany (List.any_eq_true.mpr ⟨n, hn, by simpa using he⟩)
      rw [List.filter_eq_nil_iff.mpr (fun n hn => by simpa using hall n hn)]
      rfl

/-- Witness for C7: deleting the only note purges its derived rows and
its search row and reports one removed row. -/
theorem delete_removes_all_witness :
    (∀ n ∈ (deleteNote (createNote emptyDB "A" "see [[B]] #x" "t0").1 1).1.notes, n.id ≠ 1) ∧
    ((deleteNote (createNote emptyDB "A" "see [[B]] #x" "t0").1 1).2 =
      if (createNote emptyDB "A" "see [[B]] #x" "t0").1.notes.any (fun n => n.id = 1)
      then 1 else 0) := by
  have h := delete_removes_all (createNote emptyDB "A" "see [[B]] #x" "t0").1 1 (by decide)
  exact ⟨h.1, h.2.2.2.2⟩

/-- C10 — the handler deletes links and tags rows for the requested id
before deleting the note row, unconditionally: with no note carrying the
id the count is 0, the notes table and the search index are untouched,
and yet every orphaned links or tags row carrying the id is purged. -/
theorem delete_nonexistent_purges (db : DB) (i : Nat)
    (h : ∀ n ∈ db.notes, n.id ≠ i) :
    (deleteNote db i).2 = 0 ∧
    (deleteNote db i).1.notes = db.notes ∧
    (deleteNote db i).1.fts = db.fts ∧
    (∀ l ∈ (deleteNote db i).1.links, l.1 ≠ i) ∧
    (∀ t ∈ (deleteNote db i).1.tags, t.1 ≠ i) := by
  have hnil : db.notes.filter (fun n => n.id = i) = [] := by
    rw [List.filter_eq_nil_iff]
    intro n hn
    simpa using h n hn
  refine ⟨?_, ?_, ?_, ?_, ?_⟩
  · show (db.notes.filter (fun n => n.id = i)).length = 0
    rw [hnil]; rfl
  · show db.notes.filter (fun n => n.id ≠ i) = db.notes
    rw [List.filter_eq_self]
    intro n hn
    simpa using h n hn
  · show (if (db.notes.filter (fun n => n.id = i)).length > 0 then _ else db.fts) = db.fts
    rw [hnil]
    rfl
  · intro l hl
    have := List.of_mem_filter hl
    simpa using this
  · intro t ht
    have := List.of_mem_filter ht
    simpa using this

/-- A database holding orphaned derived rows for id 5 but no notes. -/
def orphanDB : DB := ⟨[], [(5, "X")], [(5, "y")], []⟩

/-- Witness for C10: deleting id 5 returns 0 yet purges the orphaned
rows. -/
theorem delete_nonexistent_purges_witness :
    (deleteNote orphanDB 5).2 = 0 ∧
    (deleteNote orphanDB 5).1.notes = orphanDB.notes ∧
    (∀ l ∈ (deleteNote orphanDB 5).1.links, l.1 ≠ 5) := by
  have h := delete_nonexistent_purges orphanDB 5 (by intro n hn; cases hn)
  exact ⟨h.1, h.2.1, h.2.2.2.1⟩

/-! ## Context assembly (C8, C9) -/

theorem stepPush_eq (st : List NoteRec × List Nat) (r : NoteRec) :
    stepPush st r = if r.id ∈ st.2 then st else (st.1 ++ [r], st.2 ++ [r.id]) := rfl

theorem stepPush_fst_append (st : List NoteRec × List Nat) (r : NoteRec) :
    ∃ suf, (stepPush st r).1 = st.1 ++ suf := by
  rw [stepPush_eq]
  by_cases h : r.id ∈ st.2
  · exact ⟨[], by simp [h]⟩
  · exact ⟨[r], by simp [h]⟩

theorem foldl_stepPush_fst_append (L : List NoteRec) (st : List NoteRec × List Nat) :
    ∃ suf, (L.foldl stepPush st).1 = st.1 ++ suf := by
  induction L generalizing st with
  | nil => exact ⟨[], by simp⟩
  | cons r L ih =>
    obtain ⟨s1, h1⟩ := stepPush_fst_append st r
    obtain ⟨s2, h2⟩ := ih (stepPush st r)
    exact ⟨s1 ++ s2, by rw [List.foldl_cons, h2, h1, List.append_assoc]⟩

/-- The invariant of the assembly state: the used-id list is exactly the
ids of the collected notes, without duplicates. -/
def goodState (st : List NoteRec × List Nat) : Prop :=
  st.1.map (fun n => n.id) = st.2 ∧ st.2.Nodup

theorem stepPush_good (st : List NoteRec × List Nat) (r : NoteRec)
    (h : goodState st) : goodState (stepPush st r) := by
  rw [stepPush_eq]
  by_cases hm : r.id ∈ st.2
  · simpa [hm] using h
  · rw [if_neg hm]
    refine ⟨by simp [h.1], ?_⟩
    rw [List.nodup_append]
    refine ⟨h.2, List.nodup_singleton _, ?_⟩
    intro a ha hb
    rw [List.mem_singleton.mp hb] at ha
    exact hm ha

theorem foldl_stepPush_good (L : List NoteRec) (st : List NoteRec × List Nat)
    (h : goodState st) : goodState (L.foldl stepPush st) := by
  induction L generalizing st with
  | nil => exact h
  | cons r L ih => exact ih _ (stepPush_good st r h)

theorem foldl_stepPush_mem (L : List NoteRec) (st : List NoteRec × List Nat)
    (r : NoteRec) (h : r ∈ (L.foldl stepPush st).1) : r ∈ st.1 ∨ r ∈ L := by
  induction L generalizing st with
  | nil => exact Or.inl h
  | cons x L ih =>
    rcases ih (stepPush st x) h with h1 | h1
    · rw [stepPush_eq] at h1
      by_cases hm : x.id ∈ st.2
      · rw [if_pos hm] at h1
        exact Or.inl h1
      · rw [if_neg hm] at h1
        rcases List.mem_append.mp h1 with h2 | h2
        · exact Or.inl h2
        · exact Or.inr (List.mem_cons.mpr (Or.inl (List.mem_singleton.mp h2)))
    · exact Or.inr (List.mem_cons.mpr (Or.inr h1))

theorem foldl_stepPush_length (L : List NoteRec) (st : List NoteRec × List Nat) :
    (L.foldl stepPush st).1.length ≤ st.1.length + L.length := by
  induction L generalizing st with
  | nil => simp
  | cons x L ih =>
    have h1 := ih (stepPush st x)
    have h2 : (stepPush st x).1.length ≤ st.1.length + 1 := by
      rw [stepPush_eq]
      by_cases hm : x.id ∈ st.2
      · simp [hm]
      · simp [hm]
    calc (List.foldl stepPush (stepPush st x) L).1.length
        ≤ (stepPush st x).1.length + L.length := h1
      _ ≤ st.1.length + 1 + L.length := by omega
      _ = st.1.length + (x :: L).length := by simp [List.length_cons]; omega

/-- C8 — when the anchor noteId refers to an existing note, that note is
the first entry of the assembled context, and no note id occurs twice in
the context: the anchor is pushed first and pushNote drops every later
hit on an already used id, whichever source it came from. -/
theorem chat_anchor_first_nodup (db : DB) (prompt : String) (i : Nat) (topK : Nat)
    (includeAll : Bool) (ftsOutcome : Except Unit (List NoteRec)) (a : NoteRec)
    (ctx : List NoteRec)
    (hp : jsTrim prompt ≠ "")
    (hi : i ≠ 0)
    (hfind : db.notes.find? (fun n => n.id = i) = some a)
    (hok : chatContext db prompt (some i) topK includeAll ftsOutcome = Except.ok ctx) :
    ctx.head? = some a ∧ (ctx.map (fun n => n.id)).Nodup := by
  rw [chatContext, if_neg hp] at hok
  have hanchor : anchorState db (some i) = ([a], [a.id]) := by
    rw [anchorState, if_pos hi, hfind]
    rfl
  have key : ∀ L : List NoteRec,
      (L.foldl stepPush ([a], [a.id])).1.head? = some a ∧
      ((L.foldl stepPush ([a], [a.id])).1.map (fun n => n.id)).Nodup := by
    intro L
    obtain ⟨suf, hs⟩ := foldl_stepPush_fst_append L ([a], [a.id])
    have hg : goodState (L.foldl stepPush ([a], [a.id])) :=
      foldl_stepPush_good L ([a], [a.id]) ⟨by simp, List.nodup_singleton _⟩
    constructor
    · rw [hs]
      rfl
    · rw [hg.1]
      exact hg.2
  rw [hanchor] at hok
  split at hok
  · cases hok
    exact key _
  · split at hok
    · cases hok
      exact key _
    · cases hok
      exact key _

/-- A two-note database for the assembly witnesses. -/
def twoNoteDB : DB :=
  ⟨[⟨1, "Alpha", "c1", "t", "t"⟩, ⟨2, "Beta", "c2", "t", "t"⟩], [], [], []⟩

/-- Witness for C8: anchored on note 1 with a full-text result that also
contains note 1, the context starts with note 1 and holds no duplicate
ids. -/
theorem chat_anchor_first_nodup_witness :
    ([⟨1, "Alpha", "c1", "t", "t"⟩] : List NoteRec).head? = some ⟨1, "Alpha", "c1", "t", "t"⟩ ∧
    (([⟨1, "Alpha", "c1", "t", "t"⟩] : List NoteRec).map (fun n => n.id)).Nodup :=
  chat_anchor_first_nodup twoNoteDB "alp" 1 5 false
    (Except.ok [⟨1, "Alpha", "c1", "t", "t"⟩])
    ⟨1, "Alpha", "c1", "t", "t"⟩ [⟨1, "Alpha", "c1", "t", "t"⟩]
    (by decide) (by decide) (by rfl) (by rfl)

/-- C9 — when the full-text query raises a syntax error, the assembler
catches it instead of propagating: the context is still returned
successfully, every entry beyond the anchor comes from the substring
(LIKE percent-query-percent) match against note titles with content
truncated to 4000 characters, and at most topK fallback rows are
requested. -/
theorem chat_syntax_error_falls_back (db : DB) (prompt : String) (noteId : Option Nat)
    (topK : Nat) (hp : jsTrim prompt ≠ "") :
    ∃ ctx, chatContext db prompt noteId topK false (Except.error ()) = Except.ok ctx ∧
      (∀ r ∈ ctx, r ∈ (anchorState db noteId).1 ∨
        ∃ n ∈ db.notes,
          sqliteLike (likeAnyPattern (stripQuotes prompt)) n.title = true ∧ r = truncNote n) ∧
      ctx.length ≤ (anchorState db noteId).1.length + topK := by
  have hfb : (fallbackRows db (stripQuotes prompt) topK).length ≤ topK := by
    rw [fallbackRows]
    exact List.length_take_le _ _
  refine ⟨((fallbackRows db (stripQuotes prompt) topK).foldl stepPush
      (anchorState db noteId)).1, ?_, ?_, ?_⟩
  · rw [chatContext, if_neg hp]
    rfl
  · intro r hr
    rcases foldl_stepPush_mem _ _ _ hr with h1 | h1
    · exact Or.inl h1
    · right
      have h2 : r ∈ (db.notes.filter
          (fun n => sqliteLike (likeAnyPattern (stripQuotes prompt)) n.title)).map truncNote :=
        List.mem_of_mem_take h1
      obtain ⟨n, hn, he⟩ := List.mem_map.mp h2
      exact ⟨n, List.mem_of_mem_filter hn, (List.mem_filter.mp hn).2, he.symm⟩
  · calc ((fallbackRows db (stripQuotes prompt) topK).foldl stepPush
          (anchorState db noteId)).1.length
        ≤ (anchorState db noteId).1.length + (fallbackRows db (stripQuotes prompt) topK).length :=
          foldl_stepPush_length _ _
      _ ≤ (anchorState db noteId).1.length + topK := by omega

/-- Witness for C9: a prompt whose query errored falls back to the title
substring search on the two-note database. -/
theorem chat_syntax_error_falls_back_witness :
    ∃ ctx, chatContext twoNoteDB "alp" none 5 false (Except.error ()) = Except.ok ctx ∧
      (∀ r ∈ ctx, r ∈ (anchorState twoNoteDB none).1 ∨
        ∃ n ∈ twoNoteDB.notes,
          sqliteLike (likeAnyPattern (stripQuotes "alp")) n.title = true ∧ r = truncNote n) ∧
      ctx.length ≤ (anchorState twoNoteDB none).1.length + 5 :=
  chat_syntax_error_falls_back twoNoteDB "alp" none 5 (by decide)

end MiniObsidian
